import Mathlib

/-!
# cppmath: vectors, 4x4 matrices and quaternions

A shallow embedding of `src/vec3.h`, `src/vec4.h`, `src/mat4.h` and `src/quat.h`.

The class templates are generic over the scalar type `K`; here `K` is any
field, and the scalar adapter of `src/tmath.cpp` (`tsqrt`, `tcos`, `tsin`, `ttan`)
is passed to the operations that call it.  Loops of the source are folds over
the list of values the loop variable takes, and an update `a[n] += e` is
`a[n] := a[n] + e`, in the order the source performs them.
-/

namespace cppmath

/-! ## Data model -/

/-- Class template `vec3<K>` of `src/vec3.h`: the fields `x`, `y`, `z`. -/
structure vec3 (K : Type) where
  x : K
  y : K
  z : K

/-- Class template `quat<K>` of `src/quat.h`: the fields `s`, `i`, `j`, `k`. -/
structure quat (K : Type) where
  s : K
  i : K
  j : K
  k : K

/-- Class template `vec4<K>` of `src/vec4.h`: the fields `x`, `y`, `z`, `w`. -/
structure vec4 (K : Type) where
  x : K
  y : K
  z : K
  w : K

/-- Class template `mat4<K>` of `src/mat4.h`: the array `K a[16]`. -/
structure mat4 (K : Type) where
  a : Fin 16 → K

/-- Values of a loop variable `for (int i = 0; i < 3; i++)`. -/
def loop3 : List (Fin 3) := [0, 1, 2]

/-- Values of a loop variable `for (int i = 0; i < 4; i++)`. -/
def loop4 : List (Fin 4) := [0, 1, 2, 3]

/-- Values of a loop variable `for (int i = 0; i < 16; i++)`. -/
def loop16 : List (Fin 16) := [0, 1, 2, 3, 4, 5, 6, 7, 8, 9, 10, 11, 12, 13, 14, 15]

/-- Values of the loop variable of `for (int i = 0; i < 16; i += 5)`. -/
def loopDiag : List (Fin 16) := [0, 5, 10, 15]

/-- Array index `i + j * 4` for `i`, `j` below 4. -/
def ix (i j : Fin 4) : Fin 16 := ⟨i.val + j.val * 4, by omega⟩

/-- Array index `i + k * 4` for `i`, `k` below 3. -/
def ix3 (i k : Fin 3) : Fin 16 := ⟨i.val + k.val * 4, by omega⟩

/-- Array index `i + 3 * 4` for `i` below 3. -/
def ixT (i : Fin 3) : Fin 16 := ⟨i.val + 3 * 4, by omega⟩

/-! ## vec3 -/

namespace vec3

variable {K : Type} [Field K]

/-- Default constructor `vec3()`: all components zero. -/
def init : vec3 K := ⟨0, 0, 0⟩

/-- Read through `operator[](int i)`: case 0 is `x`, case 1 is `y`, default `z`. -/
def get (v : vec3 K) (n : Int) : K :=
  if n = 0 then v.x else if n = 1 then v.y else v.z

/-- Write through the reference returned by `operator[](int i)`. -/
def set (v : vec3 K) (n : Int) (c : K) : vec3 K :=
  if n = 0 then { v with x := c } else if n = 1 then { v with y := c } else { v with z := c }

/-- Scalar `operator*=`. -/
def mulAssign (v : vec3 K) (s : K) : vec3 K := ⟨v.x * s, v.y * s, v.z * s⟩

/-- Scalar `operator/=`. -/
def divAssign (v : vec3 K) (s : K) : vec3 K := ⟨v.x / s, v.y / s, v.z / s⟩

/-- Scalar `operator*`: a copy, then `*=`. -/
def mulScalar (v : vec3 K) (b : K) : vec3 K := mulAssign v b

/-- Scalar `operator/`: a copy, then `/=`. -/
def divScalar (v : vec3 K) (b : K) : vec3 K := divAssign v b

/-- Inner product `operator*(vec3)`. -/
def inner (v b : vec3 K) : K := v.x * b.x + v.y * b.y + v.z * b.z

/-- Cross product `cross`. -/
def cross (v b : vec3 K) : vec3 K :=
  let r := v
  let r := { r with x := v.y * b.z - v.z * b.y }
  let r := { r with y := v.z * b.x - v.x * b.z }
  let r := { r with z := v.x * b.y - v.y * b.x }
  r

/-- Member `norm`: `tsqrt(*this * *this)`. -/
def norm (tsqrt : K → K) (v : vec3 K) : K := tsqrt (inner v v)

/-- Member `normal`: `*this / norm()`. -/
def normal (tsqrt : K → K) (v : vec3 K) : vec3 K := divScalar v (norm tsqrt v)

end vec3

/-! ## vec4 -/

namespace vec4

variable {K : Type} [Field K]

/-- Default constructor `vec4()`: all components zero. -/
def init : vec4 K := ⟨0, 0, 0, 0⟩

/-- Read through `operator[](int i)`: cases 0, 1, 2 are `x`, `y`, `z`, default `w`. -/
def get (v : vec4 K) (n : Int) : K :=
  if n = 0 then v.x else if n = 1 then v.y else if n = 2 then v.z else v.w

/-- Write through the reference returned by `operator[](int i)`. -/
def set (v : vec4 K) (n : Int) (c : K) : vec4 K :=
  if n = 0 then { v with x := c } else if n = 1 then { v with y := c }
  else if n = 2 then { v with z := c } else { v with w := c }

/-- Inner product `operator*(vec4)`. -/
def inner (v b : vec4 K) : K := v.x * b.x + v.y * b.y + v.z * b.z + v.w * b.w

/-- Member `cross`: the copy `r` of the receiver with `x`, `y`, `z` assigned
and `r.w = w`. -/
def cross (v b : vec4 K) : vec4 K :=
  let r := v
  let r := { r with x := v.y * b.z - v.z * b.y }
  let r := { r with y := v.z * b.x - v.x * b.z }
  let r := { r with z := v.x * b.y - v.y * b.x }
  let r := { r with w := v.w }
  r

/-- Member `toVec3`. -/
def toVec3 (v : vec4 K) : vec3 K := ⟨v.x, v.y, v.z⟩

end vec4

/-! ## mat4 -/

namespace mat4

variable {K : Type} [Field K]

/-- Assignment `a[n] = c`. -/
def upd (m : mat4 K) (n : Fin 16) (c : K) : mat4 K := ⟨Function.update m.a n c⟩

/-- Member `set_zero`: `a[i] = 0` for every `i`. -/
def set_zero (m : mat4 K) : mat4 K := loop16.foldl (fun m i => m.upd i 0) m

/-- Constructor `mat4()`: calls `set_zero` on the fresh array, which overwrites
all sixteen entries. -/
def init : mat4 K := set_zero ⟨fun _ => 0⟩

/-- Static `zero()`. -/
def zero : mat4 K := init

/-- Member `set_identity`: `set_zero`, then `a[i] = 1` for `i = 0, 5, 10, 15`. -/
def set_identity (m : mat4 K) : mat4 K := loopDiag.foldl (fun m i => m.upd i 1) (set_zero m)

/-- Static `identity()`. -/
def identity : mat4 K := set_identity init

/-- Member `translate(x, y, z)`. -/
def translate (m : mat4 K) (x y z : K) : mat4 K :=
  let m := m.upd 12 (m.a 12 + x * m.a 15)
  let m := m.upd 13 (m.a 13 + y * m.a 15)
  let m := m.upd 14 (m.a 14 + z * m.a 15)
  m

/-- Member `set_translation(x, y, z)`: `set_identity`, then `translate`. -/
def set_translation (m : mat4 K) (x y z : K) : mat4 K := translate (set_identity m) x y z

/-- Static `translation(x, y, z)`. -/
def translation (x y z : K) : mat4 K := set_translation init x y z

/-- Matrix product `operator*(mat4)`: the triple loop
`c.a[i + j * 4] += a[i + k * 4] * b.a[k + j * 4]` on a zero matrix `c`. -/
def mul (m b : mat4 K) : mat4 K :=
  loop4.foldl (fun c i =>
    loop4.foldl (fun c j =>
      loop4.foldl (fun c k =>
        c.upd (ix i j) (c.a (ix i j) + m.a (ix i k) * b.a (ix k j))) c) c) init

/-- Product `operator*(vec3)`: for each row `i` below 3,
`r[i] += a[i + k * 4] * b[k]` for `k` below 3, then `r[i] += a[i + 3 * 4] * 1`. -/
def mulVec3 (m : mat4 K) (b : vec3 K) : vec3 K :=
  loop3.foldl (fun r i =>
    let r := loop3.foldl (fun r k =>
      r.set i.val (r.get i.val + m.a (ix3 i k) * b.get k.val)) r
    r.set i.val (r.get i.val + m.a (ixT i) * 1)) vec3.init

/-- Member `set_perspective(fov, far, near)`; `ttan` is the scalar adapter and
`M_PI` the constant of `math.h`. -/
def set_perspective (ttan : K → K) (M_PI : K) (m : mat4 K) (fov far near : K) : mat4 K :=
  let S := ttan (fov * M_PI / 360)
  let m := set_zero m
  let m := m.upd 0 (1 / S)
  let m := m.upd 5 (1 / S)
  let m := m.upd 10 ((far + near) / (far - near))
  let m := m.upd 11 1
  let m := m.upd 14 ((-2) * (far * near) / (far - near))
  m

/-- Static `perspective(fov, far, near)`. -/
def perspective (ttan : K → K) (M_PI : K) (fov far near : K) : mat4 K :=
  set_perspective ttan M_PI init fov far near

/-- Product `operator*(vec4)`: `r[i] += a[i + k * 4] * b[k]` for `i`, `k` below 4. -/
def mulVec4 (m : mat4 K) (b : vec4 K) : vec4 K :=
  loop4.foldl (fun r i =>
    loop4.foldl (fun r k =>
      r.set i.val (r.get i.val + m.a (ix i k) * b.get k.val)) r) vec4.init

/-- Free `operator*(vec4, mat4)`: `r[i] += a[k] * b.a[k + i * 4]` for `i`, `k`
below 4. -/
def vec4Mul (a : vec4 K) (b : mat4 K) : vec4 K :=
  loop4.foldl (fun r i =>
    loop4.foldl (fun r k =>
      r.set i.val (r.get i.val + a.get k.val * b.a (ix k i))) r) vec4.init

/-- Free `operator*(vec3, mat4)`: `r[i] += a[k] * b.a[k + i * 4]` for `k` below 3,
then `r[i] += b[3 + i * 4]`.  The last read indexes the matrix object `b`
itself, and `mat4` declares no `operator[]`; the parameter `idx` stands for it. -/
def vec3Mul (idx : mat4 K → Int → K) (a : vec3 K) (b : mat4 K) : vec3 K :=
  loop3.foldl (fun r i =>
    let r := loop3.foldl (fun r k =>
      r.set i.val (r.get i.val + a.get k.val * b.a (ix3 k i))) r
    r.set i.val (r.get i.val + idx b (3 + i.val * 4))) vec3.init

/-- Array read `b.a[n]` at an `int` index from 0 to 15, the read that the
sibling products perform. -/
def read (m : mat4 K) (n : Int) : K :=
  if h : 0 ≤ n ∧ n < 16 then m.a ⟨n.toNat, by omega⟩ else 0

/-- Matrix whose row `i` has `S` added, the other rows those of `c`. -/
def addRow (c : mat4 K) (i : Fin 4) (S : Fin 4 → K) : mat4 K :=
  ⟨fun n => if n.val % 4 = i.val then c.a n + S ⟨n.val / 4, by omega⟩ else c.a n⟩

/-- Transpose, as the specification words it (the source has no transpose):
`Rt.a[i + 4 j] = R.a[j + 4 i]`. -/
def transpose (m : mat4 K) : mat4 K := ⟨fun n => m.a ⟨n.val / 4 + (n.val % 4) * 4, by omega⟩⟩

end mat4

/-! ## quat -/

namespace quat

variable {K : Type} [Field K]

/-- Default constructor `quat()`: the identity rotation. -/
def init : quat K := ⟨1, 0, 0, 0⟩

/-- Constructor `quat(K s, vec3<K> v)`. -/
def ofVec (s : K) (v : vec3 K) : quat K := ⟨s, v.x, v.y, v.z⟩

/-- Scalar `operator*=`. -/
def mulAssign (q : quat K) (c : K) : quat K := ⟨q.s * c, q.i * c, q.j * c, q.k * c⟩

/-- Scalar `operator/=`. -/
def divAssign (q : quat K) (c : K) : quat K := ⟨q.s / c, q.i / c, q.j / c, q.k / c⟩

/-- Scalar `operator*`: a copy, then `*=`. -/
def mulScalar (q : quat K) (b : K) : quat K := mulAssign q b

/-- Scalar `operator/`: a copy, then `/=`. -/
def divScalar (q : quat K) (b : K) : quat K := divAssign q b

/-- Unary `operator-`. -/
def neg (q : quat K) : quat K := ⟨-q.s, -q.i, -q.j, -q.k⟩

/-- Conjugate `operator~`. -/
def conj (q : quat K) : quat K := ⟨q.s, -q.i, -q.j, -q.k⟩

/-- Quaternion product `operator*(quat)`. -/
def mul (q b : quat K) : quat K :=
  let r : quat K := init
  let r := { r with s := q.s * b.s - q.i * b.i - q.j * b.j - q.k * b.k }
  let r := { r with i := q.s * b.i + q.i * b.s + q.j * b.k - q.k * b.j }
  let r := { r with j := q.s * b.j + q.j * b.s + q.k * b.i - q.i * b.k }
  let r := { r with k := q.s * b.k + q.k * b.s + q.i * b.j - q.j * b.i }
  r

/-- Inner product `dot`. -/
def dot (q b : quat K) : K := q.s * b.s + q.i * b.i + q.j * b.j + q.k * b.k

/-- Inverse `operator!`: `(~*this) / dot(*this)`. -/
def inv (q : quat K) : quat K := divScalar (conj q) (dot q q)

/-- Member `norm`: `tsqrt(dot(*this))`. -/
def norm (tsqrt : K → K) (q : quat K) : K := tsqrt (dot q q)

/-- Member `normal`: `*this / norm()`. -/
def normal (tsqrt : K → K) (q : quat K) : quat K := divScalar q (norm tsqrt q)

/-- Member `to_matrix`: the sixteen assignments on a fresh matrix, from the
normalised quaternion `n`. -/
def to_matrix (tsqrt : K → K) (q : quat K) : mat4 K :=
  let n := normal tsqrt q
  let res : mat4 K := mat4.init
  let res := res.upd 0 (1 - 2 * n.j * n.j - 2 * n.k * n.k)
  let res := res.upd 1 (2 * n.i * n.j + 2 * n.k * n.s)
  let res := res.upd 2 (2 * n.i * n.k - 2 * n.j * n.s)
  let res := res.upd 3 0
  let res := res.upd 4 (2 * n.i * n.j - 2 * n.k * n.s)
  let res := res.upd 5 (1 - 2 * n.i * n.i - 2 * n.k * n.k)
  let res := res.upd 6 (2 * n.j * n.k + 2 * n.i * n.s)
  let res := res.upd 7 0
  let res := res.upd 8 (2 * n.i * n.k + 2 * n.j * n.s)
  let res := res.upd 9 (2 * n.j * n.k - 2 * n.i * n.s)
  let res := res.upd 10 (1 - 2 * n.i * n.i - 2 * n.j * n.j)
  let res := res.upd 11 0
  let res := res.upd 12 0
  let res := res.upd 13 0
  let res := res.upd 14 0
  let res := res.upd 15 1
  res

/-- The matrix of `to_matrix` with every product `n.a * n.b` of normalised
components written `a * b / dot(q, q)`; equal to `to_matrix` where `tsqrt` is a
square root of `dot(q, q)` (lemma `to_matrix_eq_rot`). -/
def rot (q : quat K) : mat4 K :=
  let N := dot q q
  let res : mat4 K := mat4.init
  let res := res.upd 0 (1 - 2 * q.j * q.j / N - 2 * q.k * q.k / N)
  let res := res.upd 1 (2 * q.i * q.j / N + 2 * q.k * q.s / N)
  let res := res.upd 2 (2 * q.i * q.k / N - 2 * q.j * q.s / N)
  let res := res.upd 3 0
  let res := res.upd 4 (2 * q.i * q.j / N - 2 * q.k * q.s / N)
  let res := res.upd 5 (1 - 2 * q.i * q.i / N - 2 * q.k * q.k / N)
  let res := res.upd 6 (2 * q.j * q.k / N + 2 * q.i * q.s / N)
  let res := res.upd 7 0
  let res := res.upd 8 (2 * q.i * q.k / N + 2 * q.j * q.s / N)
  let res := res.upd 9 (2 * q.j * q.k / N - 2 * q.i * q.s / N)
  let res := res.upd 10 (1 - 2 * q.i * q.i / N - 2 * q.j * q.j / N)
  let res := res.upd 11 0
  let res := res.upd 12 0
  let res := res.upd 13 0
  let res := res.upd 14 0
  let res := res.upd 15 1
  res

/-- Rotation of `v` by conjugation, as the specification words it: the vector
part `(i, j, k)` of `q * quat(0, v) * (!q)`. -/
def sandwich (q : quat K) (v : vec3 K) : vec3 K :=
  let p := mul (mul q (ofVec 0 v)) (inv q)
  ⟨p.i, p.j, p.k⟩

/-- Static `axis_angle(angle, axis)`:
`quat(tcos(angle / 2), axis * tsin(angle / 2))`. -/
def axis_angle (tcos tsin : K → K) (angle : K) (axis : vec3 K) : quat K :=
  ofVec (tcos (angle / 2)) (vec3.mulScalar axis (tsin (angle / 2)))

/-- Static `euler(euler)`: the Y, X and Z axis rotations multiplied in this order. -/
def euler (tcos tsin : K → K) (e : vec3 K) : quat K :=
  mul (mul (axis_angle tcos tsin e.y ⟨0, 1, 0⟩) (axis_angle tcos tsin e.x ⟨1, 0, 0⟩))
    (axis_angle tcos tsin e.z ⟨0, 0, 1⟩)

end quat

/-! ## Evaluation lemmas -/

section lemmas

variable {K : Type} [Field K]

omit [Field K] in
theorem mat4_ext (m b : mat4 K) (h : ∀ n, m.a n = b.a n) : m = b := by
  cases m; cases b; simp only [mat4.mk.injEq]; funext n; exact h n

omit [Field K] in
theorem mat4_ext_ix (m b : mat4 K) (h : ∀ i j, m.a (ix i j) = b.a (ix i j)) : m = b := by
  apply mat4_ext
  intro n
  have e : n = ix ⟨n.val % 4, by omega⟩ ⟨n.val / 4, by omega⟩ := by
    apply Fin.ext
    simp only [ix]
    omega
  rw [e]
  exact h _ _

theorem init_a (n : Fin 16) : (mat4.init : mat4 K).a n = 0 := by
  fin_cases n <;> simp [mat4.init, mat4.set_zero, loop16, mat4.upd, Function.update]

theorem identity_a (n : Fin 16) :
    (mat4.identity : mat4 K).a n = if n = 0 ∨ n = 5 ∨ n = 10 ∨ n = 15 then 1 else 0 := by
  fin_cases n <;>
    simp [mat4.identity, mat4.set_identity, mat4.init, mat4.set_zero, loop16, loopDiag,
      mat4.upd, Function.update]

/-- The sixteen values of the index `i + j * 4`. -/
theorem ix_lit :
    ix 0 0 = 0 ∧ ix 1 0 = 1 ∧ ix 2 0 = 2 ∧ ix 3 0 = 3 ∧
    ix 0 1 = 4 ∧ ix 1 1 = 5 ∧ ix 2 1 = 6 ∧ ix 3 1 = 7 ∧
    ix 0 2 = 8 ∧ ix 1 2 = 9 ∧ ix 2 2 = 10 ∧ ix 3 2 = 11 ∧
    ix 0 3 = 12 ∧ ix 1 3 = 13 ∧ ix 2 3 = 14 ∧ ix 3 3 = 15 := by
  refine ⟨?_, ?_, ?_, ?_, ?_, ?_, ?_, ?_, ?_, ?_, ?_, ?_, ?_, ?_, ?_, ?_⟩ <;> rfl

omit [Field K] in
theorem upd_a_same (c : mat4 K) (n : Fin 16) (x : K) : (c.upd n x).a n = x := by
  simp [mat4.upd]

omit [Field K] in
theorem upd_a_ne (c : mat4 K) (n p : Fin 16) (x : K) (h : p ≠ n) :
    (c.upd n x).a p = c.a p := by
  simp [mat4.upd, Function.update, h]

omit [Field K] in
theorem upd_upd_same (c : mat4 K) (n : Fin 16) (x y : K) :
    (c.upd n x).upd n y = c.upd n y := by
  simp [mat4.upd]

/-- The innermost loop of the matrix product is one update of entry `i + j * 4`. -/
theorem mul_inner (m b c : mat4 K) (i j : Fin 4) :
    loop4.foldl (fun c k =>
        c.upd (ix i j) (c.a (ix i j) + m.a (ix i k) * b.a (ix k j))) c =
      c.upd (ix i j) (c.a (ix i j) + (m.a (ix i 0) * b.a (ix 0 j) + (m.a (ix i 1) * b.a (ix 1 j)
        + (m.a (ix i 2) * b.a (ix 2 j) + m.a (ix i 3) * b.a (ix 3 j))))) := by
  simp only [loop4, List.foldl, upd_a_same, upd_upd_same, add_assoc]

omit [Field K] in
theorem ix_inj (i j p q : Fin 4) : ix i j = ix p q ↔ i = p ∧ j = q := by
  simp only [ix, Fin.mk.injEq, Fin.ext_iff]
  omega

omit [Field K] in
theorem upd_a (c : mat4 K) (n p : Fin 16) (x : K) :
    (c.upd n x).a p = if p = n then x else c.a p := by
  simp [mat4.upd, Function.update]

/-- The loop over the columns `j` of one row `i` of the matrix product. -/
theorem mul_row (c : mat4 K) (i : Fin 4) (S : Fin 4 → K) (p q : Fin 4) :
    (loop4.foldl (fun c j => c.upd (ix i j) (c.a (ix i j) + S j)) c).a (ix p q) =
      if p = i then c.a (ix p q) + S q else c.a (ix p q) := by
  simp only [loop4, List.foldl, upd_a, ix_inj]
  by_cases h : p = i
  · subst h
    fin_cases q <;> simp
  · simp [h]

theorem addRow_a (c : mat4 K) (i : Fin 4) (S : Fin 4 → K) (p q : Fin 4) :
    (mat4.addRow c i S).a (ix p q) = if p = i then c.a (ix p q) + S q else c.a (ix p q) := by
  have h1 : (ix p q).val % 4 = p.val := by simp only [ix]; omega
  have h2 : (⟨(ix p q).val / 4, by omega⟩ : Fin 4) = q := by
    apply Fin.ext; simp only [ix]; omega
  simp only [mat4.addRow, h1, h2, Fin.ext_iff]

theorem mul_row_eq (c : mat4 K) (i : Fin 4) (S : Fin 4 → K) :
    loop4.foldl (fun c j => c.upd (ix i j) (c.a (ix i j) + S j)) c = mat4.addRow c i S := by
  apply mat4_ext_ix
  intro p q
  rw [mul_row, addRow_a]

theorem mul_rows (c : mat4 K) (S : Fin 4 → Fin 4 → K) (p q : Fin 4) :
    (loop4.foldl (fun c i =>
        loop4.foldl (fun c j => c.upd (ix i j) (c.a (ix i j) + S i j)) c) c).a (ix p q) =
      c.a (ix p q) + S p q := by
  simp only [mul_row_eq]
  simp only [loop4, List.foldl, addRow_a]
  fin_cases p <;> simp

theorem mul_a (m b : mat4 K) (i j : Fin 4) :
    (mat4.mul m b).a (ix i j) =
      0 + m.a (ix i 0) * b.a (ix 0 j) + m.a (ix i 1) * b.a (ix 1 j)
        + m.a (ix i 2) * b.a (ix 2 j) + m.a (ix i 3) * b.a (ix 3 j) := by
  unfold mat4.mul
  simp only [mul_inner]
  rw [mul_rows (mat4.init : mat4 K)
    (fun i j => m.a (ix i 0) * b.a (ix 0 j) + (m.a (ix i 1) * b.a (ix 1 j)
        + (m.a (ix i 2) * b.a (ix 2 j) + m.a (ix i 3) * b.a (ix 3 j)))) i j, init_a]
  simp only [add_assoc]

/-- Closed form of the product `operator*(vec3)`, in the order the loops add. -/
theorem mulVec3_eq (m : mat4 K) (b : vec3 K) :
    mat4.mulVec3 m b =
      ⟨0 + m.a 0 * b.x + m.a 4 * b.y + m.a 8 * b.z + m.a 12 * 1,
       0 + m.a 1 * b.x + m.a 5 * b.y + m.a 9 * b.z + m.a 13 * 1,
       0 + m.a 2 * b.x + m.a 6 * b.y + m.a 10 * b.z + m.a 14 * 1⟩ := by
  simp [mat4.mulVec3, loop3, vec3.get, vec3.set, vec3.init, ix3, ixT]

theorem translation_a (x y z : K) (n : Fin 16) :
    (mat4.translation x y z).a n =
      if n = 12 then x else if n = 13 then y else if n = 14 then z
      else if n = 0 ∨ n = 5 ∨ n = 10 ∨ n = 15 then 1 else 0 := by
  fin_cases n <;>
    simp [mat4.translation, mat4.set_translation, mat4.translate, upd_a, identity_a,
      mat4.set_identity, mat4.init, mat4.set_zero, loop16, loopDiag]

theorem mul_a_fin (m b : mat4 K) (n : Fin 16) :
    (mat4.mul m b).a n =
      0 + m.a (n % 4) * b.a (n / 4 * 4) + m.a (n % 4 + 4) * b.a (n / 4 * 4 + 1)
        + m.a (n % 4 + 8) * b.a (n / 4 * 4 + 2) + m.a (n % 4 + 12) * b.a (n / 4 * 4 + 3) := by
  fin_cases n
  · exact mul_a m b 0 0
  · exact mul_a m b 1 0
  · exact mul_a m b 2 0
  · exact mul_a m b 3 0
  · exact mul_a m b 0 1
  · exact mul_a m b 1 1
  · exact mul_a m b 2 1
  · exact mul_a m b 3 1
  · exact mul_a m b 0 2
  · exact mul_a m b 1 2
  · exact mul_a m b 2 2
  · exact mul_a m b 3 2
  · exact mul_a m b 0 3
  · exact mul_a m b 1 3
  · exact mul_a m b 2 3
  · exact mul_a m b 3 3

omit [Field K] in
theorem transpose_a (m : mat4 K) (n : Fin 16) :
    (mat4.transpose m).a n = m.a (n / 4 + n % 4 * 4) := by
  fin_cases n <;> rfl

theorem rot_a (q : quat K) (n : Fin 16) :
    (quat.rot q).a n =
      if n = 15 then 1 else if n = 14 then 0 else if n = 13 then 0 else if n = 12 then 0
      else if n = 11 then 0
      else if n = 10 then 1 - 2 * q.i * q.i / quat.dot q q - 2 * q.j * q.j / quat.dot q q
      else if n = 9 then 2 * q.j * q.k / quat.dot q q - 2 * q.i * q.s / quat.dot q q
      else if n = 8 then 2 * q.i * q.k / quat.dot q q + 2 * q.j * q.s / quat.dot q q
      else if n = 7 then 0
      else if n = 6 then 2 * q.j * q.k / quat.dot q q + 2 * q.i * q.s / quat.dot q q
      else if n = 5 then 1 - 2 * q.i * q.i / quat.dot q q - 2 * q.k * q.k / quat.dot q q
      else if n = 4 then 2 * q.i * q.j / quat.dot q q - 2 * q.k * q.s / quat.dot q q
      else if n = 3 then 0
      else if n = 2 then 2 * q.i * q.k / quat.dot q q - 2 * q.j * q.s / quat.dot q q
      else if n = 1 then 2 * q.i * q.j / quat.dot q q + 2 * q.k * q.s / quat.dot q q
      else if n = 0 then 1 - 2 * q.j * q.j / quat.dot q q - 2 * q.k * q.k / quat.dot q q
      else 0 := by
  simp only [quat.rot, upd_a, init_a]

/-- Where `tsqrt` returns a square root of the nonzero `dot(q, q)`, `to_matrix`
is the matrix `rot`. -/
theorem to_matrix_eq_rot (tsqrt : K → K) (q : quat K)
    (hr : tsqrt (quat.dot q q) * tsqrt (quat.dot q q) = quat.dot q q)
    (h0 : quat.dot q q ≠ 0) : quat.to_matrix tsqrt q = quat.rot q := by
  have hr0 : tsqrt (quat.dot q q) ≠ 0 := by
    intro h
    rw [h, mul_zero] at hr
    exact h0 hr.symm
  have h2 : ∀ x y : K, 2 * (x / tsqrt (quat.dot q q)) * (y / tsqrt (quat.dot q q)) =
      2 * x * y / quat.dot q q := by
    intro x y
    generalize tsqrt (quat.dot q q) = r at hr hr0
    rw [← hr]
    field_simp
  simp only [quat.to_matrix, quat.rot, quat.normal, quat.norm, quat.divScalar,
    quat.divAssign, h2]

theorem rot_lit (q : quat K) :
    (quat.rot q).a 0 = 1 - 2 * q.j * q.j / quat.dot q q - 2 * q.k * q.k / quat.dot q q ∧
    (quat.rot q).a 1 = 2 * q.i * q.j / quat.dot q q + 2 * q.k * q.s / quat.dot q q ∧
    (quat.rot q).a 2 = 2 * q.i * q.k / quat.dot q q - 2 * q.j * q.s / quat.dot q q ∧
    (quat.rot q).a 3 = 0 ∧
    (quat.rot q).a 4 = 2 * q.i * q.j / quat.dot q q - 2 * q.k * q.s / quat.dot q q ∧
    (quat.rot q).a 5 = 1 - 2 * q.i * q.i / quat.dot q q - 2 * q.k * q.k / quat.dot q q ∧
    (quat.rot q).a 6 = 2 * q.j * q.k / quat.dot q q + 2 * q.i * q.s / quat.dot q q ∧
    (quat.rot q).a 7 = 0 ∧
    (quat.rot q).a 8 = 2 * q.i * q.k / quat.dot q q + 2 * q.j * q.s / quat.dot q q ∧
    (quat.rot q).a 9 = 2 * q.j * q.k / quat.dot q q - 2 * q.i * q.s / quat.dot q q ∧
    (quat.rot q).a 10 = 1 - 2 * q.i * q.i / quat.dot q q - 2 * q.j * q.j / quat.dot q q ∧
    (quat.rot q).a 11 = 0 ∧
    (quat.rot q).a 12 = 0 ∧
    (quat.rot q).a 13 = 0 ∧
    (quat.rot q).a 14 = 0 ∧
    (quat.rot q).a 15 = 1 := by
  refine ⟨?_, ?_, ?_, ?_, ?_, ?_, ?_, ?_, ?_, ?_, ?_, ?_, ?_, ?_, ?_, ?_⟩ <;>
    simp only [quat.rot, upd_a] <;> rfl

theorem identity_lit :
    (mat4.identity : mat4 K).a 0 = 1 ∧ (mat4.identity : mat4 K).a 1 = 0 ∧
    (mat4.identity : mat4 K).a 2 = 0 ∧ (mat4.identity : mat4 K).a 3 = 0 ∧
    (mat4.identity : mat4 K).a 4 = 0 ∧ (mat4.identity : mat4 K).a 5 = 1 ∧
    (mat4.identity : mat4 K).a 6 = 0 ∧ (mat4.identity : mat4 K).a 7 = 0 ∧
    (mat4.identity : mat4 K).a 8 = 0 ∧ (mat4.identity : mat4 K).a 9 = 0 ∧
    (mat4.identity : mat4 K).a 10 = 1 ∧ (mat4.identity : mat4 K).a 11 = 0 ∧
    (mat4.identity : mat4 K).a 12 = 0 ∧ (mat4.identity : mat4 K).a 13 = 0 ∧
    (mat4.identity : mat4 K).a 14 = 0 ∧ (mat4.identity : mat4 K).a 15 = 1 := by
  refine ⟨?_, ?_, ?_, ?_, ?_, ?_, ?_, ?_, ?_, ?_, ?_, ?_, ?_, ?_, ?_, ?_⟩ <;>
    simp [identity_a]

set_option maxHeartbeats 4000000 in
theorem rot_orth (q : quat K) (h0 : quat.dot q q ≠ 0) :
    mat4.mul (quat.rot q) (mat4.transpose (quat.rot q)) = mat4.identity := by
  apply mat4_ext
  intro n
  rw [mul_a_fin]
  simp only [transpose_a]
  have hN : quat.dot q q = q.s * q.s + q.i * q.i + q.j * q.j + q.k * q.k := rfl
  fin_cases n <;>
    simp only [Fin.isValue, Fin.reduceMod, Fin.reduceDiv, Fin.reduceAdd, Fin.reduceMul,
      Fin.zero_eta, Fin.mk_one, Fin.reduceFinMk, rot_lit, identity_lit] <;>
    generalize quat.dot q q = N at h0 hN ⊢ <;>
    field_simp <;>
    subst hN <;>
    ring


theorem dot_mul (a b : quat K) :
    quat.dot (quat.mul a b) (quat.mul a b) = quat.dot a a * quat.dot b b := by
  simp only [quat.dot, quat.mul, quat.init]
  ring

/-- The vec3 product of a matrix product, where the right factor has the bottom
row `0 0 0 1`. -/
theorem mulVec3_mul (A B : mat4 K) (v : vec3 K) (h3 : B.a 3 = 0) (h7 : B.a 7 = 0)
    (h11 : B.a 11 = 0) (h15 : B.a 15 = 1) :
    mat4.mulVec3 (mat4.mul A B) v = mat4.mulVec3 A (mat4.mulVec3 B v) := by
  simp only [mulVec3_eq, mul_a_fin, Fin.isValue, Fin.reduceMod, Fin.reduceDiv, Fin.reduceAdd,
    Fin.reduceMul, h3, h7, h11, h15, vec3.mk.injEq]
  refine ⟨?_, ?_, ?_⟩ <;> ring

set_option maxHeartbeats 4000000 in
/-- The matrix `rot` acts on a vector as conjugation by the quaternion. -/
theorem rot_mulVec3 (q : quat K) (v : vec3 K) (h0 : quat.dot q q ≠ 0) :
    mat4.mulVec3 (quat.rot q) v = quat.sandwich q v := by
  have hN : quat.dot q q = q.s * q.s + q.i * q.i + q.j * q.j + q.k * q.k := rfl
  simp only [mulVec3_eq, rot_lit, quat.sandwich, quat.mul, quat.init, quat.inv, quat.conj,
    quat.divScalar, quat.divAssign, quat.ofVec, vec3.mk.injEq]
  generalize quat.dot q q = N at h0 hN ⊢
  refine ⟨?_, ?_, ?_⟩ <;> field_simp <;> subst hN <;> ring

set_option maxHeartbeats 4000000 in
/-- The entries of `rot` as fractions with the homogeneous numerators. -/
theorem rot_hom (q : quat K) (h0 : quat.dot q q ≠ 0) :
    (quat.rot q).a 0 = (q.s * q.s + q.i * q.i - q.j * q.j - q.k * q.k) / quat.dot q q ∧
    (quat.rot q).a 1 = (2 * q.i * q.j + 2 * q.k * q.s) / quat.dot q q ∧
    (quat.rot q).a 2 = (2 * q.i * q.k - 2 * q.j * q.s) / quat.dot q q ∧
    (quat.rot q).a 3 = 0 ∧
    (quat.rot q).a 4 = (2 * q.i * q.j - 2 * q.k * q.s) / quat.dot q q ∧
    (quat.rot q).a 5 = (q.s * q.s - q.i * q.i + q.j * q.j - q.k * q.k) / quat.dot q q ∧
    (quat.rot q).a 6 = (2 * q.j * q.k + 2 * q.i * q.s) / quat.dot q q ∧
    (quat.rot q).a 7 = 0 ∧
    (quat.rot q).a 8 = (2 * q.i * q.k + 2 * q.j * q.s) / quat.dot q q ∧
    (quat.rot q).a 9 = (2 * q.j * q.k - 2 * q.i * q.s) / quat.dot q q ∧
    (quat.rot q).a 10 = (q.s * q.s - q.i * q.i - q.j * q.j + q.k * q.k) / quat.dot q q ∧
    (quat.rot q).a 11 = 0 ∧
    (quat.rot q).a 12 = 0 ∧
    (quat.rot q).a 13 = 0 ∧
    (quat.rot q).a 14 = 0 ∧
    (quat.rot q).a 15 = 1 := by
  have hN : quat.dot q q = q.s * q.s + q.i * q.i + q.j * q.j + q.k * q.k := rfl
  simp only [rot_lit]
  generalize quat.dot q q = N at h0 hN ⊢
  refine ⟨?_, ?_, ?_, ?_, ?_, ?_, ?_, ?_, ?_, ?_, ?_, ?_, ?_, ?_, ?_, ?_⟩ <;>
    (try field_simp) <;> (try (subst hN; ring))

set_option maxHeartbeats 4000000 in
/-- The matrix `rot` of a quaternion product is the product of the matrices. -/
theorem rot_mul (a b : quat K) (ha : quat.dot a a ≠ 0) (hb : quat.dot b b ≠ 0) :
    quat.rot (quat.mul a b) = mat4.mul (quat.rot a) (quat.rot b) := by
  have hab : quat.dot (quat.mul a b) (quat.mul a b) ≠ 0 := by
    rw [dot_mul]
    exact mul_ne_zero ha hb
  apply mat4_ext
  intro n
  rw [mul_a_fin]
  fin_cases n <;>
    simp only [Fin.isValue, Fin.reduceMod, Fin.reduceDiv, Fin.reduceAdd, Fin.reduceMul,
      Fin.zero_eta, Fin.mk_one, Fin.reduceFinMk, rot_hom (quat.mul a b) hab, rot_hom a ha,
      rot_hom b hb, dot_mul] <;>
    (try simp only [quat.mul, quat.init]) <;>
    generalize quat.dot a a = Na at ha ⊢ <;>
    generalize quat.dot b b = Nb at hb ⊢ <;>
    (try field_simp) <;>
    ring

/-- Over the reals a quaternion other than zero has a positive `dot(q, q)`. -/
theorem dot_pos (q : quat ℝ) (h : q ≠ ⟨0, 0, 0, 0⟩) : 0 < quat.dot q q := by
  obtain ⟨s, i, j, k⟩ := q
  simp only [quat.dot]
  have h1 : 0 ≤ s * s + i * i + j * j + k * k := by
    nlinarith [mul_self_nonneg s, mul_self_nonneg i, mul_self_nonneg j, mul_self_nonneg k]
  rcases lt_or_eq_of_le h1 with h2 | h2
  · exact h2
  · exfalso
    apply h
    have hs : s = 0 := by
      nlinarith [mul_self_nonneg s, mul_self_nonneg i, mul_self_nonneg j, mul_self_nonneg k]
    have hi : i = 0 := by
      nlinarith [mul_self_nonneg s, mul_self_nonneg i, mul_self_nonneg j, mul_self_nonneg k]
    have hj : j = 0 := by
      nlinarith [mul_self_nonneg s, mul_self_nonneg i, mul_self_nonneg j, mul_self_nonneg k]
    have hk : k = 0 := by
      nlinarith [mul_self_nonneg s, mul_self_nonneg i, mul_self_nonneg j, mul_self_nonneg k]
    rw [hs, hi, hj, hk]

/-- Over the reals, with `tsqrt` the real square root, `to_matrix` of a
quaternion other than zero is the matrix `rot`. -/
theorem to_matrix_real (q : quat ℝ) (h : q ≠ ⟨0, 0, 0, 0⟩) :
    quat.to_matrix Real.sqrt q = quat.rot q :=
  to_matrix_eq_rot Real.sqrt q (Real.mul_self_sqrt (le_of_lt (dot_pos q h)))
    (ne_of_gt (dot_pos q h))

/-- Over the reals `to_matrix` is `rot` wherever `dot(q, q)` is positive. -/
theorem to_matrix_of_pos (q : quat ℝ) (h : 0 < quat.dot q q) :
    quat.to_matrix Real.sqrt q = quat.rot q :=
  to_matrix_eq_rot Real.sqrt q (Real.mul_self_sqrt (le_of_lt h)) (ne_of_gt h)

/-- The axis-angle quaternion of a coordinate axis has `dot(q, q) = 1`. -/
theorem axis_angle_dot (θ : ℝ) :
    quat.dot (quat.axis_angle Real.cos Real.sin θ ⟨1, 0, 0⟩)
        (quat.axis_angle Real.cos Real.sin θ ⟨1, 0, 0⟩) = 1 ∧
      quat.dot (quat.axis_angle Real.cos Real.sin θ ⟨0, 1, 0⟩)
        (quat.axis_angle Real.cos Real.sin θ ⟨0, 1, 0⟩) = 1 ∧
      quat.dot (quat.axis_angle Real.cos Real.sin θ ⟨0, 0, 1⟩)
        (quat.axis_angle Real.cos Real.sin θ ⟨0, 0, 1⟩) = 1 := by
  have h := Real.cos_sq_add_sin_sq (θ / 2)
  simp only [quat.axis_angle, quat.ofVec, vec3.mulScalar, vec3.mulAssign, quat.dot]
  refine ⟨?_, ?_, ?_⟩ <;> linear_combination h

/-- Over the reals a vector other than zero has a positive inner square. -/
theorem inner_pos (v : vec3 ℝ) (h : v ≠ ⟨0, 0, 0⟩) : 0 < vec3.inner v v := by
  obtain ⟨x, y, z⟩ := v
  simp only [vec3.inner]
  have h1 : 0 ≤ x * x + y * y + z * z := by
    nlinarith [mul_self_nonneg x, mul_self_nonneg y, mul_self_nonneg z]
  rcases lt_or_eq_of_le h1 with h2 | h2
  · exact h2
  · exfalso
    apply h
    have hx : x = 0 := by
      nlinarith [mul_self_nonneg x, mul_self_nonneg y, mul_self_nonneg z]
    have hy : y = 0 := by
      nlinarith [mul_self_nonneg x, mul_self_nonneg y, mul_self_nonneg z]
    have hz : z = 0 := by
      nlinarith [mul_self_nonneg x, mul_self_nonneg y, mul_self_nonneg z]
    rw [hx, hy, hz]

omit [Field K] in
theorem fin4_val_three : ((3 : Fin 4) : ℕ) = 3 := rfl

/-- Closed form of the product `operator*(vec4)`, in the order the loops add. -/
theorem mulVec4_eq (m : mat4 K) (b : vec4 K) :
    mat4.mulVec4 m b =
      ⟨0 + m.a 0 * b.x + m.a 4 * b.y + m.a 8 * b.z + m.a 12 * b.w,
       0 + m.a 1 * b.x + m.a 5 * b.y + m.a 9 * b.z + m.a 13 * b.w,
       0 + m.a 2 * b.x + m.a 6 * b.y + m.a 10 * b.z + m.a 14 * b.w,
       0 + m.a 3 * b.x + m.a 7 * b.y + m.a 11 * b.z + m.a 15 * b.w⟩ := by
  simp [mat4.mulVec4, loop4, vec4.get, vec4.set, vec4.init, ix_lit, fin4_val_three]

/-- Closed form of the free `operator*(vec4, mat4)`. -/
theorem vec4Mul_eq (a : vec4 K) (b : mat4 K) :
    mat4.vec4Mul a b =
      ⟨0 + a.x * b.a 0 + a.y * b.a 1 + a.z * b.a 2 + a.w * b.a 3,
       0 + a.x * b.a 4 + a.y * b.a 5 + a.z * b.a 6 + a.w * b.a 7,
       0 + a.x * b.a 8 + a.y * b.a 9 + a.z * b.a 10 + a.w * b.a 11,
       0 + a.x * b.a 12 + a.y * b.a 13 + a.z * b.a 14 + a.w * b.a 15⟩ := by
  simp [mat4.vec4Mul, loop4, vec4.get, vec4.set, vec4.init, ix_lit, fin4_val_three]

/-- Closed form of the free `operator*(vec3, mat4)`, whatever `b[n]` reads. -/
theorem vec3Mul_eq (idx : mat4 K → Int → K) (a : vec3 K) (b : mat4 K) :
    mat4.vec3Mul idx a b =
      ⟨0 + a.x * b.a 0 + a.y * b.a 1 + a.z * b.a 2 + idx b 3,
       0 + a.x * b.a 4 + a.y * b.a 5 + a.z * b.a 6 + idx b 7,
       0 + a.x * b.a 8 + a.y * b.a 9 + a.z * b.a 10 + idx b 11⟩ := by
  simp [mat4.vec3Mul, loop3, vec3.get, vec3.set, vec3.init, ix3]

omit [Field K] in
theorem transpose_lit (m : mat4 K) :
    (mat4.transpose m).a 0 = m.a 0 ∧ (mat4.transpose m).a 1 = m.a 4 ∧
    (mat4.transpose m).a 2 = m.a 8 ∧ (mat4.transpose m).a 3 = m.a 12 ∧
    (mat4.transpose m).a 4 = m.a 1 ∧ (mat4.transpose m).a 5 = m.a 5 ∧
    (mat4.transpose m).a 6 = m.a 9 ∧ (mat4.transpose m).a 7 = m.a 13 ∧
    (mat4.transpose m).a 8 = m.a 2 ∧ (mat4.transpose m).a 9 = m.a 6 ∧
    (mat4.transpose m).a 10 = m.a 10 ∧ (mat4.transpose m).a 11 = m.a 14 ∧
    (mat4.transpose m).a 12 = m.a 3 ∧ (mat4.transpose m).a 13 = m.a 7 ∧
    (mat4.transpose m).a 14 = m.a 11 ∧ (mat4.transpose m).a 15 = m.a 15 := by
  refine ⟨?_, ?_, ?_, ?_, ?_, ?_, ?_, ?_, ?_, ?_, ?_, ?_, ?_, ?_, ?_, ?_⟩ <;> rfl

theorem read_lit (m : mat4 K) :
    mat4.read m 3 = m.a 3 ∧ mat4.read m 7 = m.a 7 ∧ mat4.read m 11 = m.a 11 := by
  refine ⟨?_, ?_, ?_⟩ <;> rfl

theorem dot_mulScalar (q : quat K) (c : K) :
    quat.dot (quat.mulScalar q c) (quat.mulScalar q c) = c * c * quat.dot q q := by
  simp only [quat.dot, quat.mulScalar, quat.mulAssign]
  ring

theorem dot_neg (q : quat K) : quat.dot (quat.neg q) (quat.neg q) = quat.dot q q := by
  simp only [quat.dot, quat.neg]
  ring

set_option maxHeartbeats 4000000 in
/-- The matrix `rot` is unchanged by a scalar factor other than zero. -/
theorem rot_mulScalar (q : quat K) (c : K) (h0 : quat.dot q q ≠ 0) (hc : c ≠ 0) :
    quat.rot (quat.mulScalar q c) = quat.rot q := by
  apply mat4_ext
  intro n
  fin_cases n <;>
    simp only [Fin.isValue, Fin.zero_eta, Fin.mk_one, Fin.reduceFinMk, rot_lit,
      dot_mulScalar] <;>
    (try simp only [quat.mulScalar, quat.mulAssign]) <;>
    generalize quat.dot q q = N at h0 ⊢ <;>
    (try field_simp) <;>
    (try ring)

/-- The matrix `rot` is unchanged by negation. -/
theorem rot_neg (q : quat K) : quat.rot (quat.neg q) = quat.rot q := by
  apply mat4_ext
  intro n
  fin_cases n <;>
    simp only [Fin.isValue, Fin.zero_eta, Fin.mk_one, Fin.reduceFinMk, rot_lit, dot_neg] <;>
    (try simp only [quat.neg]) <;>
    (try ring)

end lemmas

/-! ## Claims -/

/-- C1: for every real quaternion `q ≠ 0`, with `tsqrt` the real square root,
`R = q.to_matrix()` is orthonormal: `R` times its transpose is `identity()`,
entry for entry. -/
theorem to_matrix_orthonormal (q : quat ℝ) (h : q ≠ ⟨0, 0, 0, 0⟩) :
    mat4.mul (quat.to_matrix Real.sqrt q) (mat4.transpose (quat.to_matrix Real.sqrt q)) =
      mat4.identity := by
  rw [to_matrix_real q h]
  exact rot_orth q (ne_of_gt (dot_pos q h))

theorem to_matrix_orthonormal_witness :
    (⟨1, 2, 3, 4⟩ : quat ℝ) ≠ ⟨0, 0, 0, 0⟩ ∧
      mat4.mul (quat.to_matrix Real.sqrt ⟨1, 2, 3, 4⟩)
        (mat4.transpose (quat.to_matrix Real.sqrt ⟨1, 2, 3, 4⟩)) = mat4.identity :=
  ⟨by simp, to_matrix_orthonormal ⟨1, 2, 3, 4⟩ (by simp)⟩

/-- C2: `identity()` is a left and a right identity of the matrix product:
`identity() * M = M` and `M * identity() = M`, on all sixteen entries. -/
theorem identity_mul_and_mul_identity {K : Type} [Field K] (M : mat4 K) :
    mat4.mul mat4.identity M = M ∧ mat4.mul M mat4.identity = M := by
  constructor <;>
  · apply mat4_ext_ix
    intro i j
    rw [mul_a]
    fin_cases i <;> fin_cases j <;> simp [identity_a, ix_lit]

/-- C3: the quaternion product `operator*` is associative in all four
components. -/
theorem quat_mul_assoc {K : Type} [Field K] (q1 q2 q3 : quat K) :
    quat.mul (quat.mul q1 q2) q3 = quat.mul q1 (quat.mul q2 q3) := by
  simp only [quat.mul, quat.init, quat.mk.injEq]
  refine ⟨?_, ?_, ?_, ?_⟩ <;> ring

/-- C4: the quaternion product is not commutative; `q1 = (0,1,0,0)` and
`q2 = (0,0,1,0)` have `q1 * q2 ≠ q2 * q1`. -/
theorem quat_mul_not_comm :
    ∃ q1 q2 : quat ℚ, q1 = ⟨0, 1, 0, 0⟩ ∧ q2 = ⟨0, 0, 1, 0⟩ ∧
      quat.mul q1 q2 ≠ quat.mul q2 q1 := by
  refine ⟨⟨0, 1, 0, 0⟩, ⟨0, 0, 1, 0⟩, rfl, rfl, ?_⟩
  intro h
  have hk := congrArg quat.k h
  norm_num [quat.mul, quat.init] at hk

/-- C5: converting a quaternion to a matrix preserves the action of the
rotation: for every real `q ≠ 0` and every `v`, `q.to_matrix() * v` is the
vector part of `q * quat(0, v) * (!q)`; and so it is for
`q = axis_angle(θ, e)` with `e` each of the three coordinate axes. -/
theorem to_matrix_action (q : quat ℝ) (v : vec3 ℝ) (θ : ℝ) (h : q ≠ ⟨0, 0, 0, 0⟩) :
    mat4.mulVec3 (quat.to_matrix Real.sqrt q) v = quat.sandwich q v ∧
      mat4.mulVec3 (quat.to_matrix Real.sqrt
          (quat.axis_angle Real.cos Real.sin θ ⟨1, 0, 0⟩)) v =
        quat.sandwich (quat.axis_angle Real.cos Real.sin θ ⟨1, 0, 0⟩) v ∧
      mat4.mulVec3 (quat.to_matrix Real.sqrt
          (quat.axis_angle Real.cos Real.sin θ ⟨0, 1, 0⟩)) v =
        quat.sandwich (quat.axis_angle Real.cos Real.sin θ ⟨0, 1, 0⟩) v ∧
      mat4.mulVec3 (quat.to_matrix Real.sqrt
          (quat.axis_angle Real.cos Real.sin θ ⟨0, 0, 1⟩)) v =
        quat.sandwich (quat.axis_angle Real.cos Real.sin θ ⟨0, 0, 1⟩) v := by
  have key : ∀ p : quat ℝ, 0 < quat.dot p p →
      mat4.mulVec3 (quat.to_matrix Real.sqrt p) v = quat.sandwich p v := by
    intro p hp
    rw [to_matrix_of_pos p hp]
    exact rot_mulVec3 p v (ne_of_gt hp)
  obtain ⟨hx, hy, hz⟩ := axis_angle_dot θ
  refine ⟨key q (dot_pos q h), key _ ?_, key _ ?_, key _ ?_⟩
  · rw [hx]; exact one_pos
  · rw [hy]; exact one_pos
  · rw [hz]; exact one_pos

theorem to_matrix_action_witness :
    (⟨1, 2, 3, 4⟩ : quat ℝ) ≠ ⟨0, 0, 0, 0⟩ ∧
      (mat4.mulVec3 (quat.to_matrix Real.sqrt ⟨1, 2, 3, 4⟩) (⟨5, 6, 7⟩ : vec3 ℝ) =
          quat.sandwich ⟨1, 2, 3, 4⟩ ⟨5, 6, 7⟩ ∧
        mat4.mulVec3 (quat.to_matrix Real.sqrt
            (quat.axis_angle Real.cos Real.sin 1 ⟨1, 0, 0⟩)) (⟨5, 6, 7⟩ : vec3 ℝ) =
          quat.sandwich (quat.axis_angle Real.cos Real.sin 1 ⟨1, 0, 0⟩) ⟨5, 6, 7⟩ ∧
        mat4.mulVec3 (quat.to_matrix Real.sqrt
            (quat.axis_angle Real.cos Real.sin 1 ⟨0, 1, 0⟩)) (⟨5, 6, 7⟩ : vec3 ℝ) =
          quat.sandwich (quat.axis_angle Real.cos Real.sin 1 ⟨0, 1, 0⟩) ⟨5, 6, 7⟩ ∧
        mat4.mulVec3 (quat.to_matrix Real.sqrt
            (quat.axis_angle Real.cos Real.sin 1 ⟨0, 0, 1⟩)) (⟨5, 6, 7⟩ : vec3 ℝ) =
          quat.sandwich (quat.axis_angle Real.cos Real.sin 1 ⟨0, 0, 1⟩) ⟨5, 6, 7⟩) :=
  ⟨by simp, to_matrix_action ⟨1, 2, 3, 4⟩ ⟨5, 6, 7⟩ 1 (by simp)⟩

/-- C6: quaternion composition matches matrix composition in the stated
order: for real `a ≠ 0`, `b ≠ 0`, `(a * b).to_matrix() = a.to_matrix() *
b.to_matrix()`, hence `(a * b).to_matrix() * v = a.to_matrix() *
(b.to_matrix() * v)` for every `v` (the rotation of `b` is applied first). -/
theorem to_matrix_mul (a b : quat ℝ) (v : vec3 ℝ) (ha : a ≠ ⟨0, 0, 0, 0⟩)
    (hb : b ≠ ⟨0, 0, 0, 0⟩) :
    quat.to_matrix Real.sqrt (quat.mul a b) =
        mat4.mul (quat.to_matrix Real.sqrt a) (quat.to_matrix Real.sqrt b) ∧
      mat4.mulVec3 (quat.to_matrix Real.sqrt (quat.mul a b)) v =
        mat4.mulVec3 (quat.to_matrix Real.sqrt a)
          (mat4.mulVec3 (quat.to_matrix Real.sqrt b) v) := by
  have hab : 0 < quat.dot (quat.mul a b) (quat.mul a b) := by
    rw [dot_mul]
    exact mul_pos (dot_pos a ha) (dot_pos b hb)
  have e : quat.to_matrix Real.sqrt (quat.mul a b) =
      mat4.mul (quat.to_matrix Real.sqrt a) (quat.to_matrix Real.sqrt b) := by
    rw [to_matrix_of_pos _ hab, to_matrix_real a ha, to_matrix_real b hb]
    exact rot_mul a b (ne_of_gt (dot_pos a ha)) (ne_of_gt (dot_pos b hb))
  refine ⟨e, ?_⟩
  rw [e, to_matrix_real b hb]
  obtain ⟨_, _, _, h3, _, _, _, h7, _, _, _, h11, _, _, _, h15⟩ := rot_lit b
  exact mulVec3_mul _ _ v h3 h7 h11 h15

theorem to_matrix_mul_witness :
    (⟨1, 2, 3, 4⟩ : quat ℝ) ≠ ⟨0, 0, 0, 0⟩ ∧ (⟨0, 1, 0, 2⟩ : quat ℝ) ≠ ⟨0, 0, 0, 0⟩ ∧
      (quat.to_matrix Real.sqrt (quat.mul ⟨1, 2, 3, 4⟩ ⟨0, 1, 0, 2⟩) =
          mat4.mul (quat.to_matrix Real.sqrt ⟨1, 2, 3, 4⟩)
            (quat.to_matrix Real.sqrt ⟨0, 1, 0, 2⟩) ∧
        mat4.mulVec3 (quat.to_matrix Real.sqrt (quat.mul ⟨1, 2, 3, 4⟩ ⟨0, 1, 0, 2⟩))
            (⟨5, 6, 7⟩ : vec3 ℝ) =
          mat4.mulVec3 (quat.to_matrix Real.sqrt ⟨1, 2, 3, 4⟩)
            (mat4.mulVec3 (quat.to_matrix Real.sqrt ⟨0, 1, 0, 2⟩) ⟨5, 6, 7⟩)) :=
  ⟨by simp, by simp, to_matrix_mul ⟨1, 2, 3, 4⟩ ⟨0, 1, 0, 2⟩ ⟨5, 6, 7⟩ (by simp) (by simp)⟩

/-- C7: `operator!` is a two-sided inverse of every quaternion with
`dot(q, q) ≠ 0`, unit or not: `q * !q = (1,0,0,0)` and `!q * q = (1,0,0,0)`. -/
theorem quat_inv_two_sided {K : Type} [Field K] (q : quat K) (h : quat.dot q q ≠ 0) :
    quat.mul q (quat.inv q) = ⟨1, 0, 0, 0⟩ ∧ quat.mul (quat.inv q) q = ⟨1, 0, 0, 0⟩ := by
  have h2 : q.s * q.s + q.i * q.i + q.j * q.j + q.k * q.k ≠ 0 := h
  constructor <;>
  · simp only [quat.mul, quat.init, quat.inv, quat.conj, quat.divScalar, quat.divAssign,
      quat.dot, quat.mk.injEq]
    refine ⟨?_, ?_, ?_, ?_⟩ <;> field_simp <;> ring

theorem quat_inv_two_sided_witness :
    quat.dot (⟨1, 2, 3, 4⟩ : quat ℚ) ⟨1, 2, 3, 4⟩ ≠ 0 ∧
      quat.mul (⟨1, 2, 3, 4⟩ : quat ℚ) (quat.inv ⟨1, 2, 3, 4⟩) = ⟨1, 0, 0, 0⟩ ∧
      quat.mul (quat.inv (⟨1, 2, 3, 4⟩ : quat ℚ)) ⟨1, 2, 3, 4⟩ = ⟨1, 0, 0, 0⟩ :=
  ⟨by norm_num [quat.dot], quat_inv_two_sided ⟨1, 2, 3, 4⟩ (by norm_num [quat.dot])⟩

/-- C8: for every real vector `v` other than the zero vector, with `tsqrt`
the real square root, `v.normal().norm() = 1`. -/
theorem normal_norm_eq_one (v : vec3 ℝ) (h : v ≠ ⟨0, 0, 0⟩) :
    vec3.norm Real.sqrt (vec3.normal Real.sqrt v) = 1 := by
  have hpos := inner_pos v h
  have hr := Real.mul_self_sqrt (le_of_lt hpos)
  have hr0 : Real.sqrt (vec3.inner v v) ≠ 0 := by
    intro h0
    rw [h0, mul_zero] at hr
    exact (ne_of_gt hpos) hr.symm
  have hN : vec3.inner v v = v.x * v.x + v.y * v.y + v.z * v.z := rfl
  simp only [vec3.norm, vec3.normal, vec3.divScalar, vec3.divAssign]
  generalize Real.sqrt (vec3.inner v v) = r at hr hr0 ⊢
  have e : vec3.inner (⟨v.x / r, v.y / r, v.z / r⟩ : vec3 ℝ) ⟨v.x / r, v.y / r, v.z / r⟩ = 1 := by
    simp only [vec3.inner]
    field_simp
    rw [hr, hN]
  rw [e, Real.sqrt_one]

theorem normal_norm_eq_one_witness :
    (⟨3, 0, 4⟩ : vec3 ℝ) ≠ ⟨0, 0, 0⟩ ∧
      vec3.norm Real.sqrt (vec3.normal Real.sqrt (⟨3, 0, 4⟩ : vec3 ℝ)) = 1 :=
  ⟨by simp, normal_norm_eq_one ⟨3, 0, 4⟩ (by simp)⟩

/-- C9: `axis_angle(0, axis)` is the identity quaternion `(1,0,0,0)` for every
axis with real components. -/
theorem axis_angle_zero (axis : vec3 ℝ) :
    quat.axis_angle Real.cos Real.sin 0 axis = ⟨1, 0, 0, 0⟩ := by
  simp [quat.axis_angle, quat.ofVec, vec3.mulScalar, vec3.mulAssign]

/-- C10: a translation matrix moves a point by its offset,
`translation(x,y,z) * v = (v.x + x, v.y + y, v.z + z)`, and
`translation(1,2,3) * (0,0,0) = (1,2,3)`. -/
theorem translation_mulVec3 {K : Type} [Field K] (x y z : K) (v : vec3 K) :
    mat4.mulVec3 (mat4.translation x y z) v = ⟨v.x + x, v.y + y, v.z + z⟩ ∧
      mat4.mulVec3 (mat4.translation 1 2 3) (⟨0, 0, 0⟩ : vec3 K) = ⟨1, 2, 3⟩ := by
  constructor <;> simp [mulVec3_eq, translation_a]

/-- C11: the rotation by `π` about the Z axis maps the X unit vector to its
negative: `axis_angle(π, (0,0,1)).to_matrix() * (1,0,0) = (-1,0,0)`, over the
reals with the real `cos`, `sin` and square root. -/
theorem rotate_pi_about_z :
    mat4.mulVec3 (quat.to_matrix Real.sqrt
        (quat.axis_angle Real.cos Real.sin Real.pi ⟨0, 0, 1⟩)) (⟨1, 0, 0⟩ : vec3 ℝ) =
      ⟨-1, 0, 0⟩ := by
  have hq : quat.axis_angle Real.cos Real.sin Real.pi ⟨0, 0, 1⟩ = (⟨0, 0, 0, 1⟩ : quat ℝ) := by
    simp [quat.axis_angle, quat.ofVec, vec3.mulScalar, vec3.mulAssign]
  have hd : quat.dot (⟨0, 0, 0, 1⟩ : quat ℝ) ⟨0, 0, 0, 1⟩ = 1 := by
    norm_num [quat.dot]
  rw [hq, to_matrix_of_pos _ (by rw [hd]; exact one_pos), mulVec3_eq]
  simp only [rot_lit, hd, vec3.mk.injEq]
  norm_num

/-- C12: `cross` is the right-handed 3D cross product
`(a.y*b.z - a.z*b.y, a.z*b.x - a.x*b.z, a.x*b.y - a.y*b.x)`; on the basis
vectors `X × Y = Z`, `Y × Z = X`, `Z × X = Y`. -/
theorem cross_right_handed {K : Type} [Field K] (a b : vec3 K) :
    vec3.cross a b = ⟨a.y * b.z - a.z * b.y, a.z * b.x - a.x * b.z, a.x * b.y - a.y * b.x⟩ ∧
      vec3.cross (⟨1, 0, 0⟩ : vec3 K) ⟨0, 1, 0⟩ = ⟨0, 0, 1⟩ ∧
      vec3.cross (⟨0, 1, 0⟩ : vec3 K) ⟨0, 0, 1⟩ = ⟨1, 0, 0⟩ ∧
      vec3.cross (⟨0, 0, 1⟩ : vec3 K) ⟨1, 0, 0⟩ = ⟨0, 1, 0⟩ := by
  refine ⟨rfl, ?_, ?_, ?_⟩ <;> simp [vec3.cross]

/-- C13: the product of a matrix and a `vec3` treats the vector as a point with
`w = 1`: `M * v = (M * vec4(v.x, v.y, v.z, 1)).toVec3()`, and it does not depend
on the bottom-row entries `a[3]`, `a[7]`, `a[11]`, `a[15]`. -/
theorem mulVec3_as_point {K : Type} [Field K] (M : mat4 K) (v : vec3 K) :
    mat4.mulVec3 M v = vec4.toVec3 (mat4.mulVec4 M ⟨v.x, v.y, v.z, 1⟩) ∧
      ∀ c3 c7 c11 c15 : K,
        mat4.mulVec3 ((((M.upd 3 c3).upd 7 c7).upd 11 c11).upd 15 c15) v = mat4.mulVec3 M v := by
  constructor
  · rw [mulVec3_eq, mulVec4_eq]
    rfl
  · intro c3 c7 c11 c15
    rw [mulVec3_eq, mulVec3_eq]
    simp [upd_a]

/-- C14: the product with the `vec4` on the left follows the transpose
convention, `v * M = Mt * v` with `Mt.a[i + 4 j] = M.a[j + 4 i]`, and it is a
different operation from `M * v`: some `M`, `v` have `v * M ≠ M * v`. -/
theorem vec4Mul_transpose {K : Type} [Field K] (M : mat4 K) (v : vec4 K) :
    mat4.vec4Mul v M = mat4.mulVec4 (mat4.transpose M) v ∧
      ∃ (N : mat4 ℚ) (u : vec4 ℚ), mat4.vec4Mul u N ≠ mat4.mulVec4 N u := by
  constructor
  · rw [vec4Mul_eq, mulVec4_eq]
    simp only [transpose_lit, vec4.mk.injEq]
    refine ⟨?_, ?_, ?_, ?_⟩ <;> ring
  · refine ⟨(mat4.init : mat4 ℚ).upd 4 1, ⟨0, 1, 0, 0⟩, ?_⟩
    rw [vec4Mul_eq, mulVec4_eq]
    intro h
    have hx := congrArg vec4.x h
    simp [upd_a, init_a] at hx

/-- C15 (the code departs from it): the free `operator*(vec3, mat4)` adds
`b[3 + i * 4]`, a read of the matrix object through an `operator[]` that `mat4`
does not declare.  Whatever that read returns, the result is the sum over the
first three entries of column `i` plus that value; with the array read
`b.a[3 + i * 4]` of the sibling products the result is `Mt * v`, which is also
`(vec4(v.x, v.y, v.z, 1) * M).toVec3()`. -/
theorem vec3Mul_index {K : Type} [Field K] (M : mat4 K) (v : vec3 K) :
    (∀ idx : mat4 K → Int → K, mat4.vec3Mul idx v M =
        ⟨0 + v.x * M.a 0 + v.y * M.a 1 + v.z * M.a 2 + idx M 3,
         0 + v.x * M.a 4 + v.y * M.a 5 + v.z * M.a 6 + idx M 7,
         0 + v.x * M.a 8 + v.y * M.a 9 + v.z * M.a 10 + idx M 11⟩) ∧
      mat4.vec3Mul mat4.read v M = mat4.mulVec3 (mat4.transpose M) v ∧
      mat4.vec3Mul mat4.read v M = vec4.toVec3 (mat4.vec4Mul ⟨v.x, v.y, v.z, 1⟩ M) := by
  refine ⟨fun idx => vec3Mul_eq idx v M, ?_, ?_⟩
  · rw [vec3Mul_eq, mulVec3_eq]
    simp only [transpose_lit, read_lit, vec3.mk.injEq]
    refine ⟨?_, ?_, ?_⟩ <;> ring
  · rw [vec3Mul_eq, vec4Mul_eq]
    simp only [read_lit, vec4.toVec3, vec3.mk.injEq]
    refine ⟨?_, ?_, ?_⟩ <;> ring

/-- C16: `translate(x, y, z)` changes the translation column only, scaled by
the homogeneous factor: `a[12] += x * a[15]`, `a[13] += y * a[15]`,
`a[14] += z * a[15]`, and every other entry, `a[15]` included, is unchanged. -/
theorem translate_frame {K : Type} [Field K] (M : mat4 K) (x y z : K) (n : Fin 16) :
    (mat4.translate M x y z).a n =
      if n = 12 then M.a 12 + x * M.a 15
      else if n = 13 then M.a 13 + y * M.a 15
      else if n = 14 then M.a 14 + z * M.a 15
      else M.a n := by
  fin_cases n <;> simp [mat4.translate, upd_a]

/-- C17: `perspective(fov, far, near)` has, with `S = tan(fov * π / 360)`, the
entries `a[0] = 1/S`, `a[5] = 1/S`, `a[10] = (far+near)/(far-near)`, `a[11] = 1`,
`a[14] = -2*far*near/(far-near)`, and zero everywhere else, for real `fov`,
`far ≠ near` and `S ≠ 0`; there the quotients are genuine: `a[0] * S = 1`,
`a[10] * (far - near) = far + near`, `a[14] * (far - near) = -2*far*near`. -/
theorem perspective_entries (fov far near : ℝ) (h1 : far ≠ near)
    (h2 : Real.tan (fov * Real.pi / 360) ≠ 0) :
    (∀ n : Fin 16, (mat4.perspective Real.tan Real.pi fov far near).a n =
      if n = 0 then 1 / Real.tan (fov * Real.pi / 360)
      else if n = 5 then 1 / Real.tan (fov * Real.pi / 360)
      else if n = 10 then (far + near) / (far - near)
      else if n = 11 then 1
      else if n = 14 then -2 * far * near / (far - near)
      else 0) ∧
      (mat4.perspective Real.tan Real.pi fov far near).a 0 *
        Real.tan (fov * Real.pi / 360) = 1 ∧
      (mat4.perspective Real.tan Real.pi fov far near).a 10 * (far - near) = far + near ∧
      (mat4.perspective Real.tan Real.pi fov far near).a 14 * (far - near) =
        -2 * far * near := by
  have h3 : far - near ≠ 0 := sub_ne_zero.mpr h1
  have key : ∀ n : Fin 16, (mat4.perspective Real.tan Real.pi fov far near).a n =
      if n = 0 then 1 / Real.tan (fov * Real.pi / 360)
      else if n = 5 then 1 / Real.tan (fov * Real.pi / 360)
      else if n = 10 then (far + near) / (far - near)
      else if n = 11 then 1
      else if n = 14 then -2 * far * near / (far - near)
      else 0 := by
    intro n
    fin_cases n <;>
      simp [mat4.perspective, mat4.set_perspective, upd_a, mat4.init, mat4.set_zero, loop16] <;>
      ring
  refine ⟨key, ?_, ?_, ?_⟩
  · rw [key 0]
    simp only [if_true]
    field_simp
  · rw [key 10]
    simp only [Fin.isValue, Fin.reduceEq, if_true, if_false]
    field_simp
  · rw [key 14]
    simp only [Fin.isValue, Fin.reduceEq, if_true, if_false]
    field_simp

theorem perspective_entries_witness :
    (100 : ℝ) ≠ 1 ∧ Real.tan (90 * Real.pi / 360) ≠ 0 ∧
      (mat4.perspective Real.tan Real.pi 90 100 1).a 10 * ((100 : ℝ) - 1) = 100 + 1 := by
  have h90 : (90 : ℝ) * Real.pi / 360 = Real.pi / 4 := by ring
  have ht : Real.tan (90 * Real.pi / 360) ≠ 0 := by
    rw [h90, Real.tan_pi_div_four]
    exact one_ne_zero
  exact ⟨by norm_num, ht, (perspective_entries 90 100 1 (by norm_num) ht).2.2.1⟩

/-- C18: `vec4::cross` is the 3D cross product on `x`, `y`, `z` with `w` copied
from the receiver: `a.cross(b).toVec3() = a.toVec3().cross(b.toVec3())` and
`a.cross(b).w = a.w`, whatever `b.w` is. -/
theorem vec4_cross {K : Type} [Field K] (a b : vec4 K) :
    vec4.toVec3 (vec4.cross a b) = vec3.cross (vec4.toVec3 a) (vec4.toVec3 b) ∧
      (vec4.cross a b).w = a.w ∧
      ∀ w : K, vec4.cross a { b with w := w } = vec4.cross a b :=
  ⟨rfl, rfl, fun _ => rfl⟩

/-- C19: indexed access to a `vec3` never fails and indices out of range alias
to `z`: `v[0]` is `x`, `v[1]` is `y`, `v[n]` is `z` for every other integer `n`;
a write through `v[n]` with `n` other than 0 and 1 sets `z` and leaves `x` and
`y` unchanged. -/
theorem vec3_index {K : Type} [Field K] (v : vec3 K) :
    vec3.get v 0 = v.x ∧ vec3.get v 1 = v.y ∧
      (∀ n : Int, n ≠ 0 → n ≠ 1 → vec3.get v n = v.z) ∧
      (∀ (n : Int) (c : K), n ≠ 0 → n ≠ 1 → vec3.set v n c = ⟨v.x, v.y, c⟩) := by
  refine ⟨rfl, rfl, ?_, ?_⟩
  · intro n h0 h1
    simp [vec3.get, h0, h1]
  · intro n c h0 h1
    simp [vec3.set, h0, h1]

theorem vec3_index_witness :
    vec3.get (⟨1, 2, 3⟩ : vec3 ℚ) 7 = 3 ∧ vec3.get (⟨1, 2, 3⟩ : vec3 ℚ) (-4) = 3 ∧
      vec3.set (⟨1, 2, 3⟩ : vec3 ℚ) 7 9 = ⟨1, 2, 9⟩ :=
  ⟨(vec3_index (⟨1, 2, 3⟩ : vec3 ℚ)).2.2.1 7 (by decide) (by decide),
   (vec3_index (⟨1, 2, 3⟩ : vec3 ℚ)).2.2.1 (-4) (by decide) (by decide),
   (vec3_index (⟨1, 2, 3⟩ : vec3 ℚ)).2.2.2 7 9 (by decide) (by decide)⟩

/-- C20: `to_matrix` depends on the direction of the quaternion only: for real
`q ≠ 0` and `c ≠ 0`, `(q * c).to_matrix() = q.to_matrix()`, and
`(-q).to_matrix() = q.to_matrix()`. -/
theorem to_matrix_scale_invariant (q : quat ℝ) (c : ℝ) (hq : q ≠ ⟨0, 0, 0, 0⟩)
    (hc : c ≠ 0) :
    quat.to_matrix Real.sqrt (quat.mulScalar q c) = quat.to_matrix Real.sqrt q ∧
      quat.to_matrix Real.sqrt (quat.neg q) = quat.to_matrix Real.sqrt q := by
  have hp := dot_pos q hq
  have hcc : 0 < c * c := mul_self_pos.mpr hc
  have h1 : 0 < quat.dot (quat.mulScalar q c) (quat.mulScalar q c) := by
    rw [dot_mulScalar]
    exact mul_pos hcc hp
  have h2 : 0 < quat.dot (quat.neg q) (quat.neg q) := by
    rw [dot_neg]
    exact hp
  rw [to_matrix_of_pos _ h1, to_matrix_of_pos _ h2, to_matrix_of_pos _ hp]
  exact ⟨rot_mulScalar q c (ne_of_gt hp) hc, rot_neg q⟩

theorem to_matrix_scale_invariant_witness :
    (⟨1, 2, 3, 4⟩ : quat ℝ) ≠ ⟨0, 0, 0, 0⟩ ∧ (-5 : ℝ) ≠ 0 ∧
      (quat.to_matrix Real.sqrt (quat.mulScalar ⟨1, 2, 3, 4⟩ (-5)) =
          quat.to_matrix Real.sqrt ⟨1, 2, 3, 4⟩ ∧
        quat.to_matrix Real.sqrt (quat.neg ⟨1, 2, 3, 4⟩) =
          quat.to_matrix Real.sqrt (⟨1, 2, 3, 4⟩ : quat ℝ)) :=
  ⟨by simp, by norm_num, to_matrix_scale_invariant ⟨1, 2, 3, 4⟩ (-5) (by simp) (by norm_num)⟩

end cppmath
